import Mathlib

/-!
Shallow embedding of the authenticated API access engine of the ghapp-cli
repository: token lifecycle (config.js, utils/github.js), pagination
(fetchAllPages), retry with backoff (commands/secrets.js), batch enrichment
(commands/secrets.js, commands/variables.js) and team hierarchy resolution
(commands/teams.js), together with theorems settling the frozen claims.
-/

namespace GhappCli

/-! ### JavaScript value modelling

The config fields `token` and `tokenExpires` come from `process.env` and can
be `undefined` or arbitrary strings; JS truthiness on strings treats
`undefined`, `null` and the empty string as falsy. -/

/-- A JS value that is either `undefined`, `null` or a string, as stored in
`config.github.tokenExpires`. -/
inductive JSStr where
  | undef
  | null
  | str (s : String)
deriving Repr, DecidableEq

/-- JS falsiness of an optional string (`undefined`/missing or `""` are falsy). -/
def strOptFalsy : Option String → Bool
  | none => true
  | some s => s == ""

/-! ### Configuration constants (src/config/config.js, `config.api`) -/

def defaultPerPage : Nat := 30

def maxPerPage : Nat := 100

/-- `config.api.tokenRefreshBuffer`: 5 minutes in milliseconds. -/
def tokenRefreshBuffer : Int := 300000

/-! ### isTokenValid (src/config/config.js lines 124-134)

```js
export function isTokenValid(expiresAt) {
  if (!expiresAt) return false;
  try {
    const expiry = new Date(expiresAt);
    const now = new Date();
    return expiry.getTime() - now.getTime() > config.api.tokenRefreshBuffer;
  } catch { return false; }
}
```

`new Date(s)` on a non-parsing string yields an Invalid Date whose
`getTime()` is `NaN`, and `NaN - now > buffer` evaluates to `false`; we model
the JS date parser as a caller-supplied `parseDate : String → Option Int`
returning the epoch milliseconds, with `none` for Invalid Date. -/

def isTokenValid (parseDate : String → Option Int) (now : Int) : JSStr → Bool
  | JSStr.undef => false
  | JSStr.null => false
  | JSStr.str s =>
    if s == "" then false
    else
      match parseDate s with
      | none => false
      | some expiry => expiry - now > tokenRefreshBuffer

/-! ### createManualJWT (utils/github.js lines 299-317)

```js
async function createManualJWT() {
  try {
    const response = await fetch('https://api.github.com/');
    const githubDate = new Date(response.headers.get('date'));
    const githubTimestamp = Math.floor(githubDate.getTime() / 1000);
    const payload = {
      iss: config.github.appId,
      iat: githubTimestamp - 60,
      exp: githubTimestamp + 300
    };
    const privateKey = getPrivateKey();
    return jwt.sign(payload, privateKey, { algorithm: 'RS256' });
  } catch (error) {
    throw new Error(`Failed to create JWT: ${error.message}`);
  }
}
```

The authoritative server time is the input `serverDateMs` (`none` models the
fetch of the GitHub date header failing); the local clock is never consulted. -/

/-- The claim set of the signed assertion. -/
structure JWTPayload where
  iss : Int
  iat : Int
  exp : Int
deriving Repr, DecidableEq

/-- The stable message marker wrapping every failure inside `createManualJWT`. -/
def jwtErrorMark : String := "Failed to create JWT: "

def createManualJWT (appId : Int) (serverDateMs : Option Int) (fetchErrMsg : String) :
    Except String JWTPayload :=
  match serverDateMs with
  | none => Except.error (jwtErrorMark ++ fetchErrMsg)
  | some ms =>
    let githubTimestamp := Int.fdiv ms 1000
    Except.ok { iss := appId, iat := githubTimestamp - 60, exp := githubTimestamp + 300 }

/-! ### updateEnvToken (src/config/config.js)

Two revisions exist in the repository.  The first (lines 93-117) maps over the
lines of the `.env` file replacing the two token lines; the second
(lines 260-300) additionally appends the two lines when absent.  Both then
write `updatedLines.join('\n')` and set `config.github.token` /
`config.github.tokenExpires` to the same two values. -/

def tokenLineKey : String := "GITHUB_APP_TOKEN="

def expiresLineKey : String := "GITHUB_APP_TOKEN_EXPIRES="

def nlStr : String := "\n"

/-- The per-line replacement map shared by both revisions of `updateEnvToken`. -/
def updateEnvLines (envLines : List String) (newToken expiresAt : String) : List String :=
  envLines.map fun line =>
    if line.startsWith tokenLineKey then tokenLineKey ++ newToken
    else if line.startsWith expiresLineKey then expiresLineKey ++ expiresAt
    else line

/-- First revision (lines 93-117): returns the written file content together
with the two in-memory config fields (`config.github.token`,
`config.github.tokenExpires`) set after the write. -/
def updateEnvToken (envContent newToken expiresAt : String) : String × String × String :=
  let envLines := envContent.splitOn nlStr
  let updatedLines := updateEnvLines envLines newToken expiresAt
  (String.intercalate nlStr updatedLines, newToken, expiresAt)

/-- Second revision (lines 260-300): additionally appends
`GITHUB_APP_TOKEN=...` / `GITHUB_APP_TOKEN_EXPIRES=...` when no line with the
corresponding key was present. -/
def updateEnvLinesV2 (envLines : List String) (newToken expiresAt : String) : List String :=
  let hasToken := envLines.any fun l => l.startsWith tokenLineKey
  let hasExpires := envLines.any fun l => l.startsWith expiresLineKey
  let updatedLines := updateEnvLines envLines newToken expiresAt
  let withToken := if hasToken then updatedLines else updatedLines ++ [tokenLineKey ++ newToken]
  if hasExpires then withToken else withToken ++ [expiresLineKey ++ expiresAt]

/-! ### fetchAllPages (utils/github.js lines 375-408)

```js
export async function fetchAllPages(apiCall, options = {}) {
  const results = [];
  let currentPage = 1;
  const perPage = Math.min(options.perPage || config.api.defaultPerPage, config.api.maxPerPage);
  while (true) {
    const response = await apiCall({ ...options, page: currentPage, per_page: perPage });
    const data = Array.isArray(response.data)
      ? response.data : response.data.repositories || response.data.items || [];
    results.push(...data);
    if (data.length < perPage) break;
    currentPage++;
  }
  return results;
}
```

We model the endpoint backing collection as a list `items` and the page
fetch at cursor `c` as the slice of `perPage` items starting at index
`(c - 1) * perPage`.  `drainLoop` is the `while (true)` loop (fuel only
guarantees termination; `items.length + 1` pages always suffice), returning
the successive pages fetched; the engine's result is their concatenation
and the number of `apiCall` invocations is the number of pages. -/

/-- `options.perPage || config.api.defaultPerPage` clamped by
`config.api.maxPerPage` (`0` is falsy in JS). -/
def effectivePerPage (optPerPage : Option Nat) : Nat :=
  min (match optPerPage with
        | some n => if n = 0 then defaultPerPage else n
        | none => defaultPerPage)
    maxPerPage

/-- The page returned by the endpoint at cursor `c` (cursors start at 1). -/
def pageFetch (items : List α) (perPage c : Nat) : List α :=
  (items.drop ((c - 1) * perPage)).take perPage

/-- The pagination loop: fetch the page at `currentPage`, stop when it is
shorter than `perPage`, else continue at `currentPage + 1`. -/
def drainLoop (apiCall : Nat → List α) (perPage : Nat) : Nat → Nat → List (List α)
  | 0, _ => []
  | fuel + 1, currentPage =>
    let data := apiCall currentPage
    if data.length < perPage then [data]
    else data :: drainLoop apiCall perPage fuel (currentPage + 1)

/-- `fetchAllPages` over the modelled endpoint: the trace of pages fetched,
starting at cursor 1.  The engine returns their concatenation. -/
def fetchAllPages (items : List α) (optPerPage : Option Nat) : List (List α) :=
  let perPage := effectivePerPage optPerPage
  drainLoop (pageFetch items perPage) perPage (items.length + 1) 1

/-- Cursor-free form of the loop acting on the not-yet-served suffix. -/
def drainPages (perPage : Nat) : Nat → List α → List (List α)
  | 0, _ => []
  | fuel + 1, rem =>
    let data := rem.take perPage
    if data.length < perPage then [data]
    else data :: drainPages perPage fuel (rem.drop perPage)

theorem getLast?_cons_ne_nil (a : α) (l : List α) (h : l ≠ []) :
    (a :: l).getLast? = l.getLast? := by
  cases l with
  | nil => exact absurd rfl h
  | cons b t => exact List.getLast?_cons_cons

theorem drainPages_succ (p f : Nat) (rem : List α) :
    drainPages p (f + 1) rem =
      if rem.length < p then [rem.take p] else rem.take p :: drainPages p f (rem.drop p) := by
  simp only [drainPages, List.length_take]
  by_cases hc : rem.length < p
  · rw [if_pos (by omega), if_pos hc]
  · rw [if_neg (by omega), if_neg hc]

theorem drainLoop_succ (apiCall : Nat → List α) (perPage f c : Nat) :
    drainLoop apiCall perPage (f + 1) c =
      if (apiCall c).length < perPage then [apiCall c]
      else apiCall c :: drainLoop apiCall perPage f (c + 1) := rfl

theorem drainLoop_eq_drainPages (items : List α) (p : Nat) :
    ∀ (fuel c : Nat), 1 ≤ c →
      drainLoop (pageFetch items p) p fuel c = drainPages p fuel (items.drop ((c - 1) * p)) := by
  intro fuel
  induction fuel with
  | zero => intro c _; rfl
  | succ f ih =>
    intro c hc
    have hdrop : (items.drop ((c - 1) * p)).drop p = items.drop ((c + 1 - 1) * p) := by
      rw [List.drop_drop]
      congr 1
      have hcc : c - 1 + 1 = c := Nat.succ_pred_eq_of_pos hc
      calc (c - 1) * p + p = (c - 1 + 1) * p := (Nat.succ_mul (c - 1) p).symm
        _ = (c + 1 - 1) * p := by rw [hcc, Nat.add_sub_cancel]
    have hlen : (pageFetch items p c).length = min p (items.drop ((c - 1) * p)).length := by
      simp [pageFetch, List.length_take]
    rw [drainLoop_succ, drainPages_succ]
    by_cases hlt : (items.drop ((c - 1) * p)).length < p
    · rw [if_pos (by rw [hlen]; omega), if_pos hlt]
      rfl
    · rw [if_neg (by rw [hlen]; omega), if_neg hlt, ih (c + 1) (by omega), ← hdrop]
      rfl

theorem drainPages_join (p : Nat) (hp : 1 ≤ p) :
    ∀ (fuel : Nat) (rem : List α), rem.length + 1 ≤ fuel →
      (drainPages p fuel rem).flatten = rem := by
  intro fuel
  induction fuel with
  | zero => intro rem h; omega
  | succ f ih =>
    intro rem h
    rw [drainPages_succ]
    by_cases hc : rem.length < p
    · rw [if_pos hc]
      simp [List.take_of_length_le hc.le]
    · rw [if_neg hc, List.flatten_cons]
      rw [ih (rem.drop p) (by rw [List.length_drop]; omega)]
      exact List.take_append_drop p rem

theorem drainPages_length (p : Nat) (hp : 1 ≤ p) :
    ∀ (fuel : Nat) (rem : List α), rem.length + 1 ≤ fuel →
      (drainPages p fuel rem).length = rem.length / p + 1 := by
  intro fuel
  induction fuel with
  | zero => intro rem h; omega
  | succ f ih =>
    intro rem h
    rw [drainPages_succ]
    by_cases hc : rem.length < p
    · rw [if_pos hc]
      simp [Nat.div_eq_of_lt hc]
    · rw [if_neg hc, List.length_cons]
      rw [ih (rem.drop p) (by rw [List.length_drop]; omega)]
      rw [List.length_drop,
        Nat.div_eq_sub_div (show 0 < p by omega) (show p ≤ rem.length by omega)]

theorem drainPages_ne_nil (p : Nat) (fuel : Nat) (hf : 1 ≤ fuel) (rem : List α) :
    drainPages p fuel rem ≠ [] := by
  cases fuel with
  | zero => omega
  | succ f =>
    rw [drainPages_succ]
    by_cases hc : rem.length < p
    · rw [if_pos hc]; simp
    · rw [if_neg hc]; simp

theorem drainPages_dropLast (p : Nat) (hp : 1 ≤ p) :
    ∀ (fuel : Nat) (rem : List α), rem.length + 1 ≤ fuel →
      ((drainPages p fuel rem).dropLast.all fun pg => pg.length == p) = true := by
  intro fuel
  induction fuel with
  | zero => intro rem h; omega
  | succ f ih =>
    intro rem h
    rw [drainPages_succ]
    by_cases hc : rem.length < p
    · rw [if_pos hc]; simp
    · rw [if_neg hc]
      have hfuel : (rem.drop p).length + 1 ≤ f := by rw [List.length_drop]; omega
      have hne : drainPages p f (rem.drop p) ≠ [] :=
        drainPages_ne_nil p f (by omega) (rem.drop p)
      rw [List.dropLast_cons_of_ne_nil hne]
      simp only [List.all_cons, Bool.and_eq_true, beq_iff_eq]
      refine ⟨by simp [List.length_take]; omega, ih (rem.drop p) hfuel⟩

theorem drainPages_getLast_lt (p : Nat) (hp : 1 ≤ p) :
    ∀ (fuel : Nat) (rem : List α), rem.length + 1 ≤ fuel →
      ∀ l, (drainPages p fuel rem).getLast? = some l → l.length < p := by
  intro fuel
  induction fuel with
  | zero => intro rem h; omega
  | succ f ih =>
    intro rem h l hl
    rw [drainPages_succ] at hl
    by_cases hc : rem.length < p
    · rw [if_pos hc] at hl
      simp only [List.getLast?_singleton, Option.some_inj] at hl
      subst hl
      simp [List.length_take]; omega
    · rw [if_neg hc] at hl
      have hfuel : (rem.drop p).length + 1 ≤ f := by rw [List.length_drop]; omega
      have hne : drainPages p f (rem.drop p) ≠ [] :=
        drainPages_ne_nil p f (by omega) (rem.drop p)
      rw [getLast?_cons_ne_nil _ _ hne] at hl
      exact ih (rem.drop p) hfuel l hl

theorem drainPages_getLast_dvd (p : Nat) (hp : 1 ≤ p) :
    ∀ (fuel : Nat) (rem : List α), rem.length + 1 ≤ fuel → p ∣ rem.length →
      (drainPages p fuel rem).getLast? = some [] := by
  intro fuel
  induction fuel with
  | zero => intro rem h; omega
  | succ f ih =>
    intro rem h hdvd
    rw [drainPages_succ]
    by_cases hc : rem.length < p
    · have hzero : rem.length = 0 := Nat.eq_zero_of_dvd_of_lt hdvd hc
      have hnil : rem = [] := List.length_eq_zero.mp hzero
      subst hnil
      rw [if_pos hc]
      simp
    · rw [if_neg hc]
      have hfuel : (rem.drop p).length + 1 ≤ f := by rw [List.length_drop]; omega
      have hne : drainPages p f (rem.drop p) ≠ [] :=
        drainPages_ne_nil p f (by omega) (rem.drop p)
      have hdvd2 : p ∣ (rem.drop p).length := by
        rw [List.length_drop]
        exact Nat.dvd_sub' hdvd dvd_rfl
      rw [getLast?_cons_ne_nil _ _ hne]
      exact ih (rem.drop p) hfuel hdvd2

theorem ceilDiv_of_not_dvd (n p : Nat) (hp : 1 ≤ p) (h : ¬ p ∣ n) :
    (n + p - 1) / p = n / p + 1 := by
  have hn : 1 ≤ n := by
    rcases Nat.eq_zero_or_pos n with h0 | h1
    · exact absurd (h0 ▸ dvd_zero p) h
    · exact h1
  have h1 : n + p - 1 = (n - 1) + p := by omega
  rw [h1, Nat.add_div_right _ (by omega)]
  congr 1
  have hs : n - 1 + 1 = n := by omega
  have hd := Nat.succ_div (n - 1) p
  rw [hs, if_neg h] at hd
  omega

theorem ceilDiv_of_dvd (n p : Nat) (hp : 1 ≤ p) (h : p ∣ n) :
    (n + p - 1) / p = n / p := by
  rcases h with ⟨k, rfl⟩
  rw [Nat.add_sub_assoc (by omega : 1 ≤ p), Nat.mul_add_div (by omega),
    Nat.div_eq_of_lt (by omega), Nat.mul_div_cancel_left _ (by omega)]
  omega

theorem effectivePerPage_some (p : Nat) (hp1 : 1 ≤ p) (hp2 : p ≤ maxPerPage) :
    effectivePerPage (some p) = p := by
  simp only [effectivePerPage, maxPerPage] at *
  rw [if_neg (by omega : ¬ p = 0)]
  omega

theorem fetchAllPages_eq_drainPages (items : List α) (p : Nat) (hp1 : 1 ≤ p)
    (hp2 : p ≤ maxPerPage) :
    fetchAllPages items (some p) = drainPages p (items.length + 1) items := by
  show drainLoop (pageFetch items (effectivePerPage (some p))) (effectivePerPage (some p))
      (items.length + 1) 1 = _
  rw [effectivePerPage_some p hp1 hp2,
    drainLoop_eq_drainPages items p (items.length + 1) 1 (le_refl 1)]
  norm_num

/-- C1: draining the paginated endpoint over a backing collection of `n` items
with page size `1 ≤ p ≤ maxPerPage` returns exactly the `n` items in page
order; the number of `apiCall` invocations (the number of pages in the trace)
is `ceil(n/p) = (n + p - 1) / p` when `p` does not divide `n` and
`ceil(n/p) + 1` (with an empty final page) when it does; cursoring starts at
page 1 and increments by 1 (built into `drainLoop`/`fetchAllPages`), and the
loop terminates exactly at the first page with fewer than `p` items: every
non-final page has exactly `p` items and the final page has fewer than `p`. -/
theorem fetchAllPages_drain (items : List α) (p : Nat) (hp1 : 1 ≤ p) (hp2 : p ≤ maxPerPage) :
    (fetchAllPages items (some p)).flatten = items
    ∧ (¬ p ∣ items.length →
        (fetchAllPages items (some p)).length = (items.length + p - 1) / p)
    ∧ (p ∣ items.length →
        (fetchAllPages items (some p)).length = (items.length + p - 1) / p + 1
        ∧ (fetchAllPages items (some p)).getLast? = some [])
    ∧ ((fetchAllPages items (some p)).dropLast.all fun pg => pg.length == p) = true
    ∧ ((fetchAllPages items (some p)).getLast?.elim false fun l => decide (l.length < p)) = true := by
  rw [fetchAllPages_eq_drainPages items p hp1 hp2]
  have hfuel : items.length + 1 ≤ items.length + 1 := le_refl _
  refine ⟨drainPages_join p hp1 _ items hfuel, ?_, ?_, drainPages_dropLast p hp1 _ items hfuel, ?_⟩
  · intro hnd
    rw [drainPages_length p hp1 _ items hfuel, ceilDiv_of_not_dvd items.length p hp1 hnd]
  · intro hd
    refine ⟨?_, drainPages_getLast_dvd p hp1 _ items hfuel hd⟩
    rw [drainPages_length p hp1 _ items hfuel, ceilDiv_of_dvd items.length p hp1 hd]
  · have hne : drainPages p (items.length + 1) items ≠ [] :=
      drainPages_ne_nil p _ (by omega) items
    cases hl : (drainPages p (items.length + 1) items).getLast? with
    | none => exact absurd (List.getLast?_eq_none_iff.mp hl) hne
    | some l =>
      simp only [Option.elim_some]
      exact decide_eq_true (drainPages_getLast_lt p hp1 _ items hfuel l hl)

/-- Concrete backing collection used to witness the pagination claim. -/
def sevenItems : List Nat := [0, 1, 2, 3, 4, 5, 6]

theorem fetchAllPages_drain_witness :
    (1 ≤ 3 ∧ 3 ≤ maxPerPage)
    ∧ (fetchAllPages sevenItems (some 3)).flatten = sevenItems
    ∧ (fetchAllPages sevenItems (some 3)).length = (sevenItems.length + 3 - 1) / 3 :=
  ⟨⟨by decide, by decide⟩, (fetchAllPages_drain sevenItems 3 (by decide) (by decide)).1,
    (fetchAllPages_drain sevenItems 3 (by decide) (by decide)).2.1 (by decide)⟩

/-- C10: `isTokenValid` is a total boolean function; it returns `false` on an
absent expiry (`undefined`, `null` or the empty string) and on every string
the date parser rejects, so an invalid expiry is never treated as a live
credential. -/
theorem isTokenValid_total (parseDate : String → Option Int) (now : Int) (s : String)
    (hs : parseDate s = none) :
    isTokenValid parseDate now JSStr.undef = false
    ∧ isTokenValid parseDate now JSStr.null = false
    ∧ isTokenValid parseDate now (JSStr.str ("")) = false
    ∧ isTokenValid parseDate now (JSStr.str s) = false := by
  refine ⟨rfl, rfl, rfl, ?_⟩
  by_cases h : s == ""
  · simp [isTokenValid, h]
  · simp [isTokenValid, h, hs]

/-- A date parser rejecting every string, used to witness C10. -/
def parseNone : String → Option Int := fun _ => none

def garbageStr : String := "not-a-date"

theorem isTokenValid_total_witness :
    isTokenValid parseNone 0 JSStr.undef = false
    ∧ isTokenValid parseNone 0 JSStr.null = false
    ∧ isTokenValid parseNone 0 (JSStr.str ("")) = false
    ∧ isTokenValid parseNone 0 (JSStr.str garbageStr) = false :=
  isTokenValid_total parseNone 0 garbageStr rfl

/-- C7: when the authoritative server time fetch fails, `createManualJWT`
fails with the stable `Failed to create JWT:` error (never substituting a
locally guessed timestamp — the definition takes no local-clock input and
produces no payload in that case); when it succeeds with server time `ms`
milliseconds, the assertion payload carries
`iat = serverNowSeconds - 60` and `exp = serverNowSeconds + 300`. -/
theorem createManualJWT_clockSync (appId ms : Int) (msg : String) :
    createManualJWT appId none msg = Except.error (jwtErrorMark ++ msg)
    ∧ (createManualJWT appId none msg).isOk = false
    ∧ createManualJWT appId (some ms) msg =
        Except.ok { iss := appId, iat := Int.fdiv ms 1000 - 60, exp := Int.fdiv ms 1000 + 300 } :=
  ⟨rfl, rfl, rfl⟩

theorem zip_map_all {β : Type} (f : β → β) (q : β × β → Bool) (h : ∀ x, q (x, f x) = true) :
    ∀ l : List β, ((l.zip (l.map f)).all q) = true := by
  intro l
  induction l with
  | nil => rfl
  | cons a t ih => simp [List.all_cons, h a, ih]

theorem updateEnvLinesV2_decomp (envLines : List String) (newToken expiresAt : String) :
    updateEnvLinesV2 envLines newToken expiresAt =
      updateEnvLines envLines newToken expiresAt
      ++ ((if envLines.any (fun l => l.startsWith tokenLineKey) then []
            else [tokenLineKey ++ newToken])
          ++ (if envLines.any (fun l => l.startsWith expiresLineKey) then []
            else [expiresLineKey ++ expiresAt])) := by
  cases hT : envLines.any (fun l => l.startsWith tokenLineKey) <;>
    cases hE : envLines.any (fun l => l.startsWith expiresLineKey) <;>
      simp [updateEnvLinesV2, hT, hE]

/-- C9: the credential persistence hook only rewrites the lines beginning with
`GITHUB_APP_TOKEN=` / `GITHUB_APP_TOKEN_EXPIRES=` (to the new values); every
other line is preserved verbatim and in order (pointwise over the zip of old
and new line lists, whose lengths agree), the in-memory config fields receive
exactly the two written values, and in the second revision the only lines
beyond the rewritten originals are the appended
`GITHUB_APP_TOKEN=`/`GITHUB_APP_TOKEN_EXPIRES=` lines for keys that were
absent. -/
theorem updateEnvToken_frame (envLines : List String) (envContent newToken expiresAt : String) :
    (updateEnvLines envLines newToken expiresAt).length = envLines.length
    ∧ ((envLines.zip (updateEnvLines envLines newToken expiresAt)).all fun pr =>
        if pr.1.startsWith tokenLineKey then pr.2 == tokenLineKey ++ newToken
        else if pr.1.startsWith expiresLineKey then pr.2 == expiresLineKey ++ expiresAt
        else pr.2 == pr.1) = true
    ∧ (updateEnvToken envContent newToken expiresAt).2 = (newToken, expiresAt)
    ∧ (updateEnvToken envContent newToken expiresAt).1 =
        String.intercalate nlStr (updateEnvLines (envContent.splitOn nlStr) newToken expiresAt)
    ∧ (updateEnvLinesV2 envLines newToken expiresAt).take envLines.length =
        updateEnvLines envLines newToken expiresAt
    ∧ (updateEnvLinesV2 envLines newToken expiresAt).drop envLines.length =
        (if envLines.any (fun l => l.startsWith tokenLineKey) then []
          else [tokenLineKey ++ newToken])
        ++ (if envLines.any (fun l => l.startsWith expiresLineKey) then []
          else [expiresLineKey ++ expiresAt]) := by
  have hlen : (updateEnvLines envLines newToken expiresAt).length = envLines.length := by
    simp [updateEnvLines]
  refine ⟨hlen, ?_, rfl, rfl, ?_, ?_⟩
  · refine zip_map_all _ _ ?_ envLines
    intro x
    by_cases h1 : x.startsWith tokenLineKey
    · simp [h1]
    · by_cases h2 : x.startsWith expiresLineKey
      · simp [h1, h2]
      · simp [h1, h2]
  · rw [updateEnvLinesV2_decomp envLines newToken expiresAt]
    exact List.take_left' hlen
  · rw [updateEnvLinesV2_decomp envLines newToken expiresAt]
    exact List.drop_left' hlen

/-! ### retryWithBackoff (commands/secrets.js lines 14-58)

```js
const RETRY_CONFIG = { maxRetries: 3, baseDelay: 1000, maxDelay: 10000 };
async function retryWithBackoff(fn, config = RETRY_CONFIG) {
  let lastError;
  for (let attempt = 1; attempt <= config.maxRetries; attempt++) {
    try {
      return await fn();
    } catch (error) {
      lastError = error;
      if (attempt === config.maxRetries) { throw error; }
      const baseDelay = Math.min(config.baseDelay * Math.pow(2, attempt - 1), config.maxDelay);
      const jitter = Math.random() * 0.1 * baseDelay;
      const delay = baseDelay + jitter;
      await sleep(delay);
    }
  }
  throw lastError;
}
```

The operation is modelled as `op : Nat → Except ε α` giving the outcome of
its `attempt`-th invocation, and `Math.random()` as `rand : Nat → ℚ` (a value
in `[0, 1)` per attempt).  The result triple is (outcome, number of
invocations of `op`, list of delays slept).  The `Except (Option ε)` outcome
uses `some e` for a thrown caught error and `none` for the `throw lastError`
after the loop (reachable only when `maxRetries = 0`, when `lastError` is
still `undefined`); the fuel argument mirrors the loop bound
`attempt <= maxRetries`. -/

def retryGo {ε α : Type} (op : Nat → Except ε α) (rand : Nat → ℚ) (baseDelay maxDelay : ℚ)
    (maxRetries : Nat) : Nat → Nat → Except (Option ε) α × Nat × List ℚ
  | 0, _ => (Except.error none, 0, [])
  | fuel + 1, attempt =>
    match op attempt with
    | Except.ok v => (Except.ok v, 1, [])
    | Except.error e =>
      if attempt = maxRetries then (Except.error (some e), 1, [])
      else
        let base := min (baseDelay * 2 ^ (attempt - 1)) maxDelay
        let jitter := rand attempt * (1 / 10) * base
        let delay := base + jitter
        let r := retryGo op rand baseDelay maxDelay maxRetries fuel (attempt + 1)
        (r.1, r.2.1 + 1, delay :: r.2.2)

def retryWithBackoff {ε α : Type} (op : Nat → Except ε α) (rand : Nat → ℚ)
    (maxRetries : Nat) (baseDelay maxDelay : ℚ) : Except (Option ε) α × Nat × List ℚ :=
  retryGo op rand baseDelay maxDelay maxRetries maxRetries 1

theorem retryGo_ok {ε α : Type} (op : Nat → Except ε α) (rand : Nat → ℚ)
    (baseDelay maxDelay : ℚ) (maxRetries fuel attempt : Nat) (v : α)
    (h : op attempt = Except.ok v) :
    retryGo op rand baseDelay maxDelay maxRetries (fuel + 1) attempt = (Except.ok v, 1, []) := by
  simp [retryGo, h]

theorem retryGo_err_last {ε α : Type} (op : Nat → Except ε α) (rand : Nat → ℚ)
    (baseDelay maxDelay : ℚ) (maxRetries fuel attempt : Nat) (e : ε)
    (h : op attempt = Except.error e) (hat : attempt = maxRetries) :
    retryGo op rand baseDelay maxDelay maxRetries (fuel + 1) attempt =
      (Except.error (some e), 1, []) := by
  subst hat
  simp [retryGo, h]

theorem retryGo_err_retry {ε α : Type} (op : Nat → Except ε α) (rand : Nat → ℚ)
    (baseDelay maxDelay : ℚ) (maxRetries fuel attempt : Nat) (e : ε)
    (h : op attempt = Except.error e) (hat : ¬ attempt = maxRetries) :
    retryGo op rand baseDelay maxDelay maxRetries (fuel + 1) attempt =
      ((retryGo op rand baseDelay maxDelay maxRetries fuel (attempt + 1)).1,
        (retryGo op rand baseDelay maxDelay maxRetries fuel (attempt + 1)).2.1 + 1,
        (min (baseDelay * 2 ^ (attempt - 1)) maxDelay
          + rand attempt * (1 / 10) * min (baseDelay * 2 ^ (attempt - 1)) maxDelay)
          :: (retryGo op rand baseDelay maxDelay maxRetries fuel (attempt + 1)).2.2) := by
  simp [retryGo, h, hat]

/-- C4: with the default config (`maxRetries 3`, `baseDelay 1000`,
`maxDelay 10000`): an operation failing exactly twice then succeeding makes
the wrapper return the success value after exactly 3 invocations; an
always-failing operation is invoked exactly 3 times and the third error is
rethrown unmodified; the delay slept before retry `k` is
`min(1000 * 2^(k-1), 10000)` plus the jitter `rand k * (1/10)` of it, which
lies between `0` and 10% of that clamped delay. -/
theorem retryWithBackoff_spec {ε α : Type} (op opAll : Nat → Except ε α) (rand randAll : Nat → ℚ)
    (e1 e2 : ε) (v : α) (es : Nat → ε)
    (h1 : op 1 = Except.error e1) (h2 : op 2 = Except.error e2) (h3 : op 3 = Except.ok v)
    (hall : ∀ k, opAll k = Except.error (es k))
    (hr : ∀ k, 0 ≤ rand k ∧ rand k < 1) :
    retryWithBackoff op rand 3 1000 10000 =
      (Except.ok v, 3,
        [min ((1000 : ℚ) * 2 ^ (1 - 1)) 10000
            + rand 1 * (1 / 10) * min ((1000 : ℚ) * 2 ^ (1 - 1)) 10000,
          min ((1000 : ℚ) * 2 ^ (2 - 1)) 10000
            + rand 2 * (1 / 10) * min ((1000 : ℚ) * 2 ^ (2 - 1)) 10000])
    ∧ retryWithBackoff opAll randAll 3 1000 10000 =
      (Except.error (some (es 3)), 3,
        [min ((1000 : ℚ) * 2 ^ (1 - 1)) 10000
            + randAll 1 * (1 / 10) * min ((1000 : ℚ) * 2 ^ (1 - 1)) 10000,
          min ((1000 : ℚ) * 2 ^ (2 - 1)) 10000
            + randAll 2 * (1 / 10) * min ((1000 : ℚ) * 2 ^ (2 - 1)) 10000])
    ∧ (0 ≤ rand 1 * (1 / 10) * min ((1000 : ℚ) * 2 ^ (1 - 1)) 10000
        ∧ rand 1 * (1 / 10) * min ((1000 : ℚ) * 2 ^ (1 - 1)) 10000
          ≤ (1 / 10) * min ((1000 : ℚ) * 2 ^ (1 - 1)) 10000)
    ∧ (0 ≤ rand 2 * (1 / 10) * min ((1000 : ℚ) * 2 ^ (2 - 1)) 10000
        ∧ rand 2 * (1 / 10) * min ((1000 : ℚ) * 2 ^ (2 - 1)) 10000
          ≤ (1 / 10) * min ((1000 : ℚ) * 2 ^ (2 - 1)) 10000) := by
  have hb1 : (0 : ℚ) ≤ min ((1000 : ℚ) * 2 ^ (1 - 1)) 10000 := by norm_num
  have hb2 : (0 : ℚ) ≤ min ((1000 : ℚ) * 2 ^ (2 - 1)) 10000 := by norm_num
  refine ⟨?_, ?_, ?_, ?_⟩
  · show retryGo op rand 1000 10000 3 3 1 = _
    rw [show (3 : Nat) = 2 + 1 from rfl]
    rw [retryGo_err_retry op rand 1000 10000 (2 + 1) 2 1 e1 h1 (by omega)]
    rw [retryGo_err_retry op rand 1000 10000 (2 + 1) 1 2 e2 h2 (by omega)]
    rw [retryGo_ok op rand 1000 10000 (2 + 1) 0 3 v h3]
  · show retryGo opAll randAll 1000 10000 3 3 1 = _
    rw [show (3 : Nat) = 2 + 1 from rfl]
    rw [retryGo_err_retry opAll randAll 1000 10000 (2 + 1) 2 1 (es 1) (hall 1) (by omega)]
    rw [retryGo_err_retry opAll randAll 1000 10000 (2 + 1) 1 2 (es 2) (hall 2) (by omega)]
    rw [retryGo_err_last opAll randAll 1000 10000 (2 + 1) 0 3 (es 3) (hall 3) rfl]
  · exact ⟨mul_nonneg (mul_nonneg (hr 1).1 (by norm_num)) hb1,
      mul_le_mul_of_nonneg_right (by nlinarith [(hr 1).1, (hr 1).2]) hb1⟩
  · exact ⟨mul_nonneg (mul_nonneg (hr 2).1 (by norm_num)) hb2,
      mul_le_mul_of_nonneg_right (by nlinarith [(hr 2).1, (hr 2).2]) hb2⟩

def doneStr : String := "done"

/-- An operation failing on its first two attempts, succeeding on the third. -/
def opTwiceFail : Nat → Except Nat String :=
  fun k => if k ≤ 2 then Except.error k else Except.ok doneStr

/-- An operation failing on every attempt, throwing the attempt number. -/
def opAlwaysFail : Nat → Except Nat String := fun k => Except.error k

def zeroRand : Nat → ℚ := fun _ => 0

theorem retryWithBackoff_spec_witness :
    retryWithBackoff opTwiceFail zeroRand 3 1000 10000 =
      (Except.ok doneStr, 3,
        [min ((1000 : ℚ) * 2 ^ (1 - 1)) 10000
            + zeroRand 1 * (1 / 10) * min ((1000 : ℚ) * 2 ^ (1 - 1)) 10000,
          min ((1000 : ℚ) * 2 ^ (2 - 1)) 10000
            + zeroRand 2 * (1 / 10) * min ((1000 : ℚ) * 2 ^ (2 - 1)) 10000])
    ∧ retryWithBackoff opAlwaysFail zeroRand 3 1000 10000 =
      (Except.error (some 3), 3,
        [min ((1000 : ℚ) * 2 ^ (1 - 1)) 10000
            + zeroRand 1 * (1 / 10) * min ((1000 : ℚ) * 2 ^ (1 - 1)) 10000,
          min ((1000 : ℚ) * 2 ^ (2 - 1)) 10000
            + zeroRand 2 * (1 / 10) * min ((1000 : ℚ) * 2 ^ (2 - 1)) 10000]) :=
  ⟨(retryWithBackoff_spec opTwiceFail opAlwaysFail zeroRand zeroRand 1 2 doneStr
      (fun k => k) rfl rfl rfl (fun _ => rfl) (fun _ => ⟨le_refl 0, by norm_num [zeroRand]⟩)).1,
    (retryWithBackoff_spec opTwiceFail opAlwaysFail zeroRand zeroRand 1 2 doneStr
      (fun k => k) rfl rfl rfl (fun _ => rfl) (fun _ => ⟨le_refl 0, by norm_num [zeroRand]⟩)).2.1⟩

/-! ### Batch enrichment (commands/secrets.js lines 191-234, commands/variables.js lines 185-241)

```js
const batchSize = 5;
for (let i = 0; i < repos.length; i += batchSize) {
  const batch = repos.slice(i, i + batchSize);
  const batchPromises = batch.map(repo =>
    fetchRepositoryVariables(octokit, org, repo.name)
      .catch(error => { ...; return []; }));
  const batchResults = await Promise.all(batchPromises);
  batchResults.forEach(repoVariables => { allRepoVariables.push(...repoVariables); });
  if (i + batchSize < repositories.length) {
    await new Promise(resolve => setTimeout(resolve, 100));
  }
}
```

The per-entity function is `perEntityFn : α → Except ε (List β)`; a thrown
per-entity failure is caught and degraded to `[]` for that entity only.  The
result triple is (the consecutive batches processed, the collected results,
the list of inter-batch sleep durations in ms).  Fuel (`entities.length`
suffices, since every non-final round consumes `batchSize ≥ 1` entities)
stands in for the `for` loop. -/

def batchSizeConst : Nat := 5

def interBatchDelayMs : Nat := 100

/-- `.catch(error => ...; return [])`: degrade a per-entity failure to an
empty result. -/
def degradeToEmpty {ε β : Type} : Except ε (List β) → List β
  | Except.ok l => l
  | Except.error _ => []

def processBatchesGo {α ε β : Type} (perEntityFn : α → Except ε (List β)) :
    Nat → List α → List (List α) × List β × List Nat
  | 0, _ => ([], [], [])
  | fuel + 1, repos =>
    if repos.isEmpty then ([], [], [])
    else
      let batch := repos.take batchSizeConst
      let batchResults := (batch.map fun repo => degradeToEmpty (perEntityFn repo)).flatten
      let rest := repos.drop batchSizeConst
      let r := processBatchesGo perEntityFn fuel rest
      (batch :: r.1, batchResults ++ r.2.1,
        (if rest.isEmpty then [] else [interBatchDelayMs]) ++ r.2.2)

/-- The batch-enrichment engine over a list of entities. -/
def enrichAll {α ε β : Type} (perEntityFn : α → Except ε (List β)) (entities : List α) :
    List (List α) × List β × List Nat :=
  processBatchesGo perEntityFn entities.length entities

theorem processBatchesGo_nil {α ε β : Type} (f : α → Except ε (List β)) (fuel : Nat) :
    processBatchesGo f fuel ([] : List α) = ([], [], []) := by
  cases fuel <;> rfl

theorem processBatchesGo_succ {α ε β : Type} (f : α → Except ε (List β)) (fuel : Nat)
    (repos : List α) (h : repos ≠ []) :
    processBatchesGo f (fuel + 1) repos =
      (repos.take batchSizeConst :: (processBatchesGo f fuel (repos.drop batchSizeConst)).1,
        ((repos.take batchSizeConst).map fun r => degradeToEmpty (f r)).flatten
          ++ (processBatchesGo f fuel (repos.drop batchSizeConst)).2.1,
        (if (repos.drop batchSizeConst).isEmpty then [] else [interBatchDelayMs])
          ++ (processBatchesGo f fuel (repos.drop batchSizeConst)).2.2) := by
  simp only [processBatchesGo]
  rw [if_neg (by simpa [List.isEmpty_iff] using h)]

theorem processBatchesGo_fst_ne_nil {α ε β : Type} (f : α → Except ε (List β)) (fuel : Nat)
    (repos : List α) (hf : 1 ≤ fuel) (h : repos ≠ []) :
    (processBatchesGo f fuel repos).1 ≠ [] := by
  cases fuel with
  | zero => omega
  | succ n =>
    rw [processBatchesGo_succ f n repos h]
    simp

theorem processBatchesGo_flatten {α ε β : Type} (f : α → Except ε (List β)) :
    ∀ (fuel : Nat) (repos : List α), repos.length ≤ fuel →
      (processBatchesGo f fuel repos).1.flatten = repos := by
  intro fuel
  induction fuel with
  | zero =>
    intro repos h
    have : repos = [] := List.length_eq_zero.mp (by omega)
    subst this
    rfl
  | succ n ih =>
    intro repos h
    by_cases hnil : repos = []
    · subst hnil; rfl
    · rw [processBatchesGo_succ f n repos hnil, List.flatten_cons]
      rw [ih (repos.drop batchSizeConst)
        (by rw [List.length_drop]; simp only [batchSizeConst]; omega)]
      exact List.take_append_drop _ repos

theorem processBatchesGo_sizes {α ε β : Type} (f : α → Except ε (List β)) :
    ∀ (fuel : Nat) (repos : List α), repos.length ≤ fuel →
      ((processBatchesGo f fuel repos).1.all fun b =>
        decide (b.length ≤ batchSizeConst) && !b.isEmpty) = true := by
  intro fuel
  induction fuel with
  | zero =>
    intro repos h
    have : repos = [] := List.length_eq_zero.mp (by omega)
    subst this
    rfl
  | succ n ih =>
    intro repos h
    by_cases hnil : repos = []
    · subst hnil; rfl
    · rw [processBatchesGo_succ f n repos hnil]
      simp only [List.all_cons, Bool.and_eq_true, decide_eq_true_eq]
      refine ⟨⟨by simp [List.length_take], ?_⟩,
        ih (repos.drop batchSizeConst)
          (by rw [List.length_drop]; simp only [batchSizeConst]; omega)⟩
      simp [List.isEmpty_iff, List.take_eq_nil_iff, hnil, batchSizeConst]

theorem processBatchesGo_full_but_last {α ε β : Type} (f : α → Except ε (List β)) :
    ∀ (fuel : Nat) (repos : List α), repos.length ≤ fuel →
      ((processBatchesGo f fuel repos).1.dropLast.all fun b =>
        b.length == batchSizeConst) = true := by
  intro fuel
  induction fuel with
  | zero =>
    intro repos h
    have : repos = [] := List.length_eq_zero.mp (by omega)
    subst this
    rfl
  | succ n ih =>
    intro repos h
    by_cases hnil : repos = []
    · subst hnil; rfl
    · rw [processBatchesGo_succ f n repos hnil]
      by_cases hrest : repos.drop batchSizeConst = []
      · rw [hrest, processBatchesGo_nil]
        rfl
      · have hn : 1 ≤ n := by
          have h1 : (repos.drop batchSizeConst).length ≠ 0 :=
            fun hh => hrest (List.length_eq_zero.mp hh)
          rw [List.length_drop] at h1
          simp only [batchSizeConst] at h1
          omega
        have hfull : batchSizeConst ≤ repos.length := by
          by_contra hcon
          exact hrest (List.drop_eq_nil_of_le (by omega))
        have hne : (processBatchesGo f n (repos.drop batchSizeConst)).1 ≠ [] :=
          processBatchesGo_fst_ne_nil f n _ hn hrest
        rw [List.dropLast_cons_of_ne_nil hne]
        simp only [List.all_cons, Bool.and_eq_true, beq_iff_eq]
        refine ⟨by simp [List.length_take]; omega,
          ih (repos.drop batchSizeConst)
            (by rw [List.length_drop]; simp only [batchSizeConst]; omega)⟩

theorem processBatchesGo_results {α ε β : Type} (f : α → Except ε (List β)) :
    ∀ (fuel : Nat) (repos : List α), repos.length ≤ fuel →
      (processBatchesGo f fuel repos).2.1 =
        (repos.map fun r => degradeToEmpty (f r)).flatten := by
  intro fuel
  induction fuel with
  | zero =>
    intro repos h
    have : repos = [] := List.length_eq_zero.mp (by omega)
    subst this
    rfl
  | succ n ih =>
    intro repos h
    by_cases hnil : repos = []
    · subst hnil; rfl
    · rw [processBatchesGo_succ f n repos hnil]
      rw [ih (repos.drop batchSizeConst)
        (by rw [List.length_drop]; simp only [batchSizeConst]; omega)]
      calc ((repos.take batchSizeConst).map fun r => degradeToEmpty (f r)).flatten
            ++ ((repos.drop batchSizeConst).map fun r => degradeToEmpty (f r)).flatten
          = ((repos.take batchSizeConst ++ repos.drop batchSizeConst).map
              fun r => degradeToEmpty (f r)).flatten := by
            rw [List.map_append, List.flatten_append]
        _ = (repos.map fun r => degradeToEmpty (f r)).flatten := by
            rw [List.take_append_drop]

theorem processBatchesGo_sleeps {α ε β : Type} (f : α → Except ε (List β)) :
    ∀ (fuel : Nat) (repos : List α), repos.length ≤ fuel →
      (processBatchesGo f fuel repos).2.2 =
        List.replicate ((processBatchesGo f fuel repos).1.length - 1) interBatchDelayMs := by
  intro fuel
  induction fuel with
  | zero =>
    intro repos h
    have : repos = [] := List.length_eq_zero.mp (by omega)
    subst this
    rfl
  | succ n ih =>
    intro repos h
    by_cases hnil : repos = []
    · subst hnil; rfl
    · rw [processBatchesGo_succ f n repos hnil]
      by_cases hrest : repos.drop batchSizeConst = []
      · rw [hrest, processBatchesGo_nil]
        simp
      · have hn : 1 ≤ n := by
          have h1 : (repos.drop batchSizeConst).length ≠ 0 :=
            fun hh => hrest (List.length_eq_zero.mp hh)
          rw [List.length_drop] at h1
          simp only [batchSizeConst] at h1
          omega
        have hne : (processBatchesGo f n (repos.drop batchSizeConst)).1 ≠ [] :=
          processBatchesGo_fst_ne_nil f n _ hn hrest
        have hlen : 1 ≤ (processBatchesGo f n (repos.drop batchSizeConst)).1.length :=
          List.length_pos.mpr hne
        rw [ih (repos.drop batchSizeConst)
          (by rw [List.length_drop]; simp only [batchSizeConst]; omega)]
        rw [if_neg (by simpa [List.isEmpty_iff] using hrest)]
        obtain ⟨m, hm⟩ :
            ∃ m, (processBatchesGo f n (repos.drop batchSizeConst)).1.length = m + 1 :=
          ⟨_, (Nat.succ_pred_eq_of_pos hlen).symm⟩
        rw [hm]
        simp only [List.singleton_append, List.length_cons, Nat.add_sub_cancel]
        rw [hm, List.replicate_succ]

/-- The twelve entities of the testable property. -/
def twelveEntities : List Nat := List.range 12

def boomMsg : String := "boom"

/-- A per-entity enrichment function wrapping entity `e` as `[e]` but failing
on entity `7`. -/
def failOnSeven : Nat → Except String (List Nat) :=
  fun e => if e = 7 then Except.error boomMsg else Except.ok [e]

/-- C6: the batch-enrichment engine partitions the entities into consecutive
groups of at most `batchSize = 5`, processed strictly in order (their
concatenation is the input); every non-final group has exactly 5 entities;
a per-entity failure degrades to an empty result for that entity only, so the
collected output is the per-entity degraded map of the whole input
independent of which entities failed; the inter-batch 100 ms sleep happens
exactly once between consecutive groups (skipped after the last); over 12
entities the groups are 5, 5, 2 and one induced failure (entity 7) leaves the
other 11 results intact. -/
theorem enrichAll_spec {α ε β : Type} (perEntityFn : α → Except ε (List β)) (entities : List α) :
    (enrichAll perEntityFn entities).1.flatten = entities
    ∧ ((enrichAll perEntityFn entities).1.all fun b =>
        decide (b.length ≤ batchSizeConst) && !b.isEmpty) = true
    ∧ ((enrichAll perEntityFn entities).1.dropLast.all fun b =>
        b.length == batchSizeConst) = true
    ∧ (enrichAll perEntityFn entities).2.1 =
        (entities.map fun e => degradeToEmpty (perEntityFn e)).flatten
    ∧ (enrichAll perEntityFn entities).2.2 =
        List.replicate ((enrichAll perEntityFn entities).1.length - 1) interBatchDelayMs
    ∧ (enrichAll failOnSeven twelveEntities).1.map List.length = [5, 5, 2]
    ∧ (enrichAll failOnSeven twelveEntities).2.1 = [0, 1, 2, 3, 4, 5, 6, 8, 9, 10, 11]
    ∧ (enrichAll failOnSeven twelveEntities).2.2 =
        [interBatchDelayMs, interBatchDelayMs] :=
  ⟨processBatchesGo_flatten perEntityFn entities.length entities (le_refl _),
    processBatchesGo_sizes perEntityFn entities.length entities (le_refl _),
    processBatchesGo_full_but_last perEntityFn entities.length entities (le_refl _),
    processBatchesGo_results perEntityFn entities.length entities (le_refl _),
    processBatchesGo_sleeps perEntityFn entities.length entities (le_refl _),
    by decide, by decide, by decide⟩

/-! ### getOctokitClient (utils/github.js lines 324-366)

```js
let octokitInstance = null;
export async function getOctokitClient() {
  let token = config.github.token;
  const expiresAt = config.github.tokenExpires;
  if (!token || !isTokenValid(expiresAt)) {
    const jwt = await createManualJWT();                      // network call 1
    const response = await fetch(`.../access_tokens`, {...}); // network call 2
    if (!response.ok) { throw ...; }
    const tokenData = await response.json();
    token = tokenData.token;
    updateEnvToken(token, tokenData.expires_at);
  }
  if (!octokitInstance || octokitInstance.auth !== token) {
    octokitInstance = new Octokit({ auth: token });
  }
  return octokitInstance;
}
```

State: the in-memory config credential (`token`, `tokenExpires`) and the
module-level `octokitInstance`, identified by its `auth` token (`none` means
no instance yet).  The successful-refresh response is the pair
(`newTok`, `newExp`); a refresh performs 2 network calls (the server-time
fetch inside `createManualJWT` and the token-exchange POST).  The returned
`Nat` counts the network calls of the invocation. -/

structure GState where
  token : Option String
  tokenExpires : JSStr
  octokitAuth : Option String
deriving Repr, DecidableEq

/-- `if (!octokitInstance || octokitInstance.auth !== token) { octokitInstance = new Octokit... }` -/
def instanceCheck (token : Option String) (s : GState) : GState :=
  if s.octokitAuth.isNone || (s.octokitAuth != token) then
    { s with octokitAuth := token }
  else s

def getOctokitClient (parseDate : String → Option Int) (now : Int) (newTok newExp : String)
    (s : GState) : GState × Nat :=
  if strOptFalsy s.token || !(isTokenValid parseDate now s.tokenExpires) then
    (instanceCheck (some newTok)
      { token := some newTok, tokenExpires := JSStr.str newExp, octokitAuth := s.octokitAuth }, 2)
  else
    (instanceCheck s.token s, 0)

theorem instanceCheck_token (t : Option String) (s : GState) :
    (instanceCheck t s).token = s.token := by
  simp only [instanceCheck]
  split <;> rfl

theorem instanceCheck_tokenExpires (t : Option String) (s : GState) :
    (instanceCheck t s).tokenExpires = s.tokenExpires := by
  simp only [instanceCheck]
  split <;> rfl

theorem getOctokitClient_cached_run (parseDate : String → Option Int) (now : Int)
    (newTok newExp : String) (s : GState)
    (h1 : strOptFalsy s.token = false)
    (h2 : isTokenValid parseDate now s.tokenExpires = true) :
    getOctokitClient parseDate now newTok newExp s = (instanceCheck s.token s, 0) := by
  simp [getOctokitClient, h1, h2]

theorem getOctokitClient_refresh_run (parseDate : String → Option Int) (now : Int)
    (newTok newExp : String) (s : GState)
    (h : (strOptFalsy s.token || !(isTokenValid parseDate now s.tokenExpires)) = true) :
    getOctokitClient parseDate now newTok newExp s =
      (instanceCheck (some newTok)
        { token := some newTok, tokenExpires := JSStr.str newExp, octokitAuth := s.octokitAuth },
        2) := by
  simp only [getOctokitClient]
  rw [if_pos h]

/-- C3: with a cached token string and an expiry more than
`tokenRefreshBuffer = 300000` ms (5 min) past `now`, `getOctokitClient`
performs zero network calls and leaves the credential state (`token`,
`tokenExpires`) unchanged — in particular a second immediate call also
performs zero network calls, and when the Octokit instance already carries
this token the call changes nothing at all; conversely an expiry within the
buffer is treated as expired: the call refreshes (2 network calls: server
time fetch and assertion exchange) and installs the new credential. -/
theorem getOctokitClient_cache (parseDate : String → Option Int) (now e1 e2 : Int)
    (es1 es2 tok newTok newExp : String) (oct oct2 : Option String)
    (htok : tok ≠ "") (hes1 : es1 ≠ "")
    (hp1 : parseDate es1 = some e1) (hv : e1 - now > tokenRefreshBuffer)
    (hp2 : parseDate es2 = some e2) (hx : ¬ e2 - now > tokenRefreshBuffer) :
    (getOctokitClient parseDate now newTok newExp ⟨some tok, JSStr.str es1, oct⟩).2 = 0
    ∧ (getOctokitClient parseDate now newTok newExp ⟨some tok, JSStr.str es1, oct⟩).1.token
        = some tok
    ∧ (getOctokitClient parseDate now newTok newExp ⟨some tok, JSStr.str es1, oct⟩).1.tokenExpires
        = JSStr.str es1
    ∧ (getOctokitClient parseDate now newTok newExp
        (getOctokitClient parseDate now newTok newExp ⟨some tok, JSStr.str es1, oct⟩).1).2 = 0
    ∧ getOctokitClient parseDate now newTok newExp ⟨some tok, JSStr.str es1, some tok⟩
        = (⟨some tok, JSStr.str es1, some tok⟩, 0)
    ∧ (getOctokitClient parseDate now newTok newExp ⟨some tok, JSStr.str es2, oct2⟩).2 = 2
    ∧ (getOctokitClient parseDate now newTok newExp ⟨some tok, JSStr.str es2, oct2⟩).1.token
        = some newTok
    ∧ (getOctokitClient parseDate now newTok newExp ⟨some tok, JSStr.str es2, oct2⟩).1.tokenExpires
        = JSStr.str newExp := by
  have hfalsy : strOptFalsy (some tok) = false := by simp [strOptFalsy, htok]
  have hvalid : isTokenValid parseDate now (JSStr.str es1) = true := by
    simp [isTokenValid, hes1, hp1, hv]
  have hstale : isTokenValid parseDate now (JSStr.str es2) = false := by
    simp [isTokenValid, hp2, hx]
  have hrun1 := getOctokitClient_cached_run parseDate now newTok newExp
    ⟨some tok, JSStr.str es1, oct⟩ hfalsy hvalid
  have hrun2 := getOctokitClient_refresh_run parseDate now newTok newExp
    ⟨some tok, JSStr.str es2, oct2⟩ (by simp [hfalsy, hstale])
  refine ⟨by rw [hrun1], by rw [hrun1]; exact instanceCheck_token _ _,
    by rw [hrun1]; exact instanceCheck_tokenExpires _ _, ?_, ?_,
    by rw [hrun2], by rw [hrun2, instanceCheck_token], by rw [hrun2, instanceCheck_tokenExpires]⟩
  · rw [hrun1]
    have hrun1b := getOctokitClient_cached_run parseDate now newTok newExp
      (instanceCheck (some tok) ⟨some tok, JSStr.str es1, oct⟩)
      (by rw [instanceCheck_token]; exact hfalsy)
      (by rw [instanceCheck_tokenExpires]; exact hvalid)
    rw [hrun1b]
  · rw [getOctokitClient_cached_run parseDate now newTok newExp
      ⟨some tok, JSStr.str es1, some tok⟩ hfalsy hvalid]
    simp [instanceCheck]

def tokA : String := "tokA"

def tokB : String := "tokB"

def expFar : String := "2099-01-01T00:00:00Z"

def expNear : String := "1999-01-01T00:00:00Z"

/-- A concrete date parser: the far expiry parses to 10^9 ms, the near one to
0 ms, anything else is an Invalid Date. -/
def parseTwo : String → Option Int :=
  fun s => if s = expFar then some 1000000000 else if s = expNear then some 0 else none

theorem getOctokitClient_cache_witness :
    (getOctokitClient parseTwo 0 tokB expNear ⟨some tokA, JSStr.str expFar, none⟩).2 = 0
    ∧ getOctokitClient parseTwo 0 tokB expNear ⟨some tokA, JSStr.str expFar, some tokA⟩
        = (⟨some tokA, JSStr.str expFar, some tokA⟩, 0)
    ∧ (getOctokitClient parseTwo 0 tokB expNear ⟨some tokA, JSStr.str expNear, none⟩).2 = 2 :=
  ⟨(getOctokitClient_cache parseTwo 0 1000000000 0 expFar expNear tokA tokB expNear none none
      (by decide) (by decide) (by simp [parseTwo]) (by decide)
      (by simp [parseTwo, expFar, expNear]) (by decide)).1,
    (getOctokitClient_cache parseTwo 0 1000000000 0 expFar expNear tokA tokB expNear none none
      (by decide) (by decide) (by simp [parseTwo]) (by decide)
      (by simp [parseTwo, expFar, expNear]) (by decide)).2.2.2.2.1,
    (getOctokitClient_cache parseTwo 0 1000000000 0 expFar expNear tokA tokB expNear none none
      (by decide) (by decide) (by simp [parseTwo]) (by decide)
      (by simp [parseTwo, expFar, expNear]) (by decide)).2.2.2.2.2.1⟩

/-! ### Team hierarchy (commands/teams.js)

```js
async function buildTeamHierarchy(octokit, org, teams) {
  const hierarchy = {};
  for (const team of teams) {
    hierarchy[team.slug] = { parent: team.parent?.slug || null, children: [] };
  }
  for (const team of teams) {
    if (team.parent?.slug && hierarchy[team.parent.slug]) {
      hierarchy[team.parent.slug].children.push(team.slug);
    }
  }
  return hierarchy;
}
```

A JS object keyed by slug is modelled as an association list with
assignment (`hset`, replacing an existing key in place or appending a new
one) and lookup (`hget`).  `team.parent?.slug || null` maps an absent
parent or an empty parent slug to `null` (`normParent`). -/

structure Team where
  slug : String
  parentSlug : Option String
deriving Repr, DecidableEq

structure Member where
  username : String
  role : String
  state : String
deriving Repr, DecidableEq

/-- One value of the hierarchy object: `{parent, children}`. -/
structure HEntry where
  parent : Option String
  children : List String
deriving Repr, DecidableEq

/-- Property lookup on the modelled JS object (`hierarchy[k]`). -/
def hget : List (String × HEntry) → String → Option HEntry
  | [], _ => none
  | pr :: rest, k => if pr.1 == k then some pr.2 else hget rest k

/-- Property assignment on the modelled JS object (`hierarchy[k] = v`). -/
def hset (m : List (String × HEntry)) (k : String) (v : HEntry) : List (String × HEntry) :=
  if m.any fun pr => pr.1 == k then
    m.map fun pr => if pr.1 == k then (k, v) else pr
  else m ++ [(k, v)]

/-- `team.parent?.slug || null` (the empty string is falsy). -/
def normParent : Option String → Option String
  | none => none
  | some s => if s = "" then none else some s

/-- First loop: `hierarchy[team.slug] = {parent: team.parent?.slug || null, children: []}`. -/
def hierPass1 (m : List (String × HEntry)) (t : Team) : List (String × HEntry) :=
  hset m t.slug { parent := normParent t.parentSlug, children := [] }

/-- Second loop: `if (team.parent?.slug && hierarchy[team.parent.slug])
hierarchy[team.parent.slug].children.push(team.slug)`. -/
def hierPass2 (m : List (String × HEntry)) (t : Team) : List (String × HEntry) :=
  match normParent t.parentSlug with
  | some p =>
    match hget m p with
    | some e => hset m p { parent := e.parent, children := e.children ++ [t.slug] }
    | none => m
  | none => m

def buildTeamHierarchy (teams : List Team) : List (String × HEntry) :=
  teams.foldl hierPass2 (teams.foldl hierPass1 [])

/-! ### getDirectMembersOnly (commands/teams.js lines 251-286)

```js
async function getDirectMembersOnly(octokit, org, teamSlug, childTeamSlugs, parentTeamSlug = null) {
  const allMembers = await getTeamMemberDetails(octokit, org, teamSlug);
  if (!parentTeamSlug && childTeamSlugs.length === 0) { return allMembers; }
  if (!parentTeamSlug && childTeamSlugs.length > 0) {
    const childMembers = new Set();
    for (const childSlug of childTeamSlugs) {
      const childMemberDetails = await getTeamMemberDetails(octokit, org, childSlug);
      childMemberDetails.forEach(member => childMembers.add(member.username));
    }
    const directMembers = allMembers.filter(member => !childMembers.has(member.username));
    return directMembers;
  }
  if (parentTeamSlug) { return allMembers; }
  return allMembers;
}
```

The per-team raw member fetch `getTeamMemberDetails` is the input
`rawOf : String → List Member`; the username `Set` is modelled as the
accumulated username list (membership-equivalent). -/

def getDirectMembersOnly (rawOf : String → List Member) (teamSlug : String)
    (childTeamSlugs : List String) (parentTeamSlug : Option String) : List Member :=
  let allMembers := rawOf teamSlug
  if strOptFalsy parentTeamSlug = true ∧ childTeamSlugs.length = 0 then allMembers
  else if strOptFalsy parentTeamSlug = true ∧ childTeamSlugs.length > 0 then
    let childMembers := childTeamSlugs.foldl
      (fun acc childSlug => acc ++ (rawOf childSlug).map Member.username) []
    allMembers.filter fun m => !(childMembers.contains m.username)
  else if strOptFalsy parentTeamSlug = false then allMembers
  else allMembers

/-- The enrichment pipeline for one team (commands/teams.js lines 116-126):
`hierarchyInfo = teamHierarchy[team.slug] || {}` and
`getDirectMembersOnly(..., hierarchyInfo.children || [], hierarchyInfo.parent)`. -/
def resolveDirect (teams : List Team) (rawOf : String → List Member) (t : Team) : List Member :=
  match hget (buildTeamHierarchy teams) t.slug with
  | some info => getDirectMembersOnly rawOf t.slug info.children info.parent
  | none => getDirectMembersOnly rawOf t.slug [] none

theorem bool_eq_false {b : Bool} (h : ¬ b = true) : b = false := by
  cases b with
  | true => exact absurd rfl h
  | false => rfl

theorem hset_of_not_mem (m : List (String × HEntry)) (k : String) (v : HEntry)
    (h : (m.any fun pr => pr.1 == k) = false) : hset m k v = m ++ [(k, v)] := by
  simp only [hset, h]
  rfl

theorem hget_append (m l : List (String × HEntry)) (k : String) :
    hget (m ++ l) k = match hget m k with
      | some v => some v
      | none => hget l k := by
  induction m with
  | nil => rfl
  | cons a t ih =>
    by_cases h : (a.1 == k) = true
    · simp [hget, h]
    · simp only [List.cons_append, hget, bool_eq_false h]
      simpa using ih

theorem hget_eq_none (m : List (String × HEntry)) (k : String)
    (hmem : (m.any fun pr => pr.1 == k) = false) : hget m k = none := by
  induction m with
  | nil => rfl
  | cons a t ih =>
    rw [List.any_cons, Bool.or_eq_false_iff] at hmem
    simp only [hget, hmem.1]
    simpa using ih hmem.2

theorem hget_map_subst (m : List (String × HEntry)) (k : String) (v : HEntry) :
    hget (m.map fun pr => if pr.1 == k then (k, v) else pr) k
      = if (m.any fun pr => pr.1 == k) = true then some v else none := by
  induction m with
  | nil => rfl
  | cons a t ih =>
    by_cases h : (a.1 == k) = true
    · simp [hget, h]
    · simp only [List.map_cons, if_neg h]
      simp only [hget]
      rw [if_neg h, List.any_cons, bool_eq_false h, Bool.false_or]
      exact ih

theorem hget_map_subst_ne (m : List (String × HEntry)) (k k' : String) (v : HEntry)
    (h : k' ≠ k) :
    hget (m.map fun pr => if pr.1 == k then (k, v) else pr) k' = hget m k' := by
  induction m with
  | nil => rfl
  | cons a t ih =>
    by_cases ha : (a.1 == k) = true
    · have hak : a.1 = k := by simpa using ha
      have hk : ¬ (k == k') = true := by
        simp only [beq_iff_eq]
        exact fun hh => h hh.symm
      have hak' : (a.1 == k') = false := by
        rw [hak]
        exact bool_eq_false hk
      simp only [List.map_cons, if_pos ha, hget, bool_eq_false hk, hak']
      exact ih
    · simp only [List.map_cons, if_neg ha, hget]
      by_cases ha' : (a.1 == k') = true
      · simp [ha']
      · simp only [bool_eq_false ha']
        exact ih

theorem hget_hset_self (m : List (String × HEntry)) (k : String) (v : HEntry) :
    hget (hset m k v) k = some v := by
  by_cases hmem : (m.any fun pr => pr.1 == k) = true
  · simp only [hset, hmem, if_true]
    rw [hget_map_subst, if_pos hmem]
  · rw [hset_of_not_mem m k v (bool_eq_false hmem), hget_append,
      hget_eq_none m k (bool_eq_false hmem)]
    simp [hget]

theorem hget_hset_ne (m : List (String × HEntry)) (k k' : String) (v : HEntry)
    (h : k' ≠ k) : hget (hset m k v) k' = hget m k' := by
  by_cases hmem : (m.any fun pr => pr.1 == k) = true
  · simp only [hset, hmem, if_true]
    exact hget_map_subst_ne m k k' v h
  · rw [hset_of_not_mem m k v (bool_eq_false hmem), hget_append]
    cases hm : hget m k' with
    | some e => rfl
    | none =>
      have hkk : ¬ (k == k') = true := by
        simp only [beq_iff_eq]
        exact fun hh => h hh.symm
      simp [hget, bool_eq_false hkk]

theorem foldl_hierPass2_hget (k : String) :
    ∀ (suf : List Team) (m : List (String × HEntry)),
      hget (suf.foldl hierPass2 m) k =
        match hget m k with
        | none => none
        | some e => some (HEntry.mk e.parent (e.children
            ++ ((suf.filter fun u => normParent u.parentSlug == some k).map Team.slug))) := by
  intro suf
  induction suf with
  | nil =>
    intro m
    rw [List.foldl_nil]
    cases hg : hget m k <;> simp
  | cons u rest ih =>
    intro m
    rw [List.foldl_cons, ih (hierPass2 m u)]
    cases hnp : normParent u.parentSlug with
    | none =>
      have hstep : hierPass2 m u = m := by simp [hierPass2, hnp]
      have hflt : ((u :: rest).filter fun w => normParent w.parentSlug == some k)
          = rest.filter fun w => normParent w.parentSlug == some k :=
        List.filter_cons_of_neg (by simp [hnp])
      rw [hstep, hflt]
    | some p =>
      cases hgp : hget m p with
      | none =>
        have hstep : hierPass2 m u = m := by simp [hierPass2, hnp, hgp]
        rw [hstep]
        by_cases hpk : p = k
        · rw [hpk] at hgp
          rw [hgp]
        · have hflt : ((u :: rest).filter fun w => normParent w.parentSlug == some k)
              = rest.filter fun w => normParent w.parentSlug == some k :=
            List.filter_cons_of_neg (by simp [hnp, hpk])
          rw [hflt]
      | some e =>
        have hstep : hierPass2 m u =
            hset m p (HEntry.mk e.parent (e.children ++ [u.slug])) := by
          simp [hierPass2, hnp, hgp]
        by_cases hpk : p = k
        · rw [hpk] at hstep hgp hnp
          rw [hstep, hget_hset_self, hgp]
          have hflt : ((u :: rest).filter fun w => normParent w.parentSlug == some k)
              = u :: rest.filter fun w => normParent w.parentSlug == some k :=
            List.filter_cons_of_pos (by simp [hnp])
          rw [hflt]
          simp [List.append_assoc]
        · rw [hstep, hget_hset_ne m p k _ (fun hh => hpk hh.symm)]
          have hflt : ((u :: rest).filter fun w => normParent w.parentSlug == some k)
              = rest.filter fun w => normParent w.parentSlug == some k :=
            List.filter_cons_of_neg (by simp [hnp, hpk])
          rw [hflt]

theorem foldl_hierPass1_eq :
    ∀ (ts : List Team) (m : List (String × HEntry)),
      (ts.map Team.slug).Nodup →
      (∀ t ∈ ts, (m.any fun pr => pr.1 == t.slug) = false) →
      ts.foldl hierPass1 m
        = m ++ ts.map fun t => (t.slug, HEntry.mk (normParent t.parentSlug) []) := by
  intro ts
  induction ts with
  | nil => intro m _ _; simp
  | cons t rest ih =>
    intro m hnd hdis
    have hnd' : t.slug ∉ rest.map Team.slug ∧ (rest.map Team.slug).Nodup := by
      rw [List.map_cons, List.nodup_cons] at hnd
      exact hnd
    rw [List.foldl_cons]
    have hstep : hierPass1 m t
        = m ++ [(t.slug, HEntry.mk (normParent t.parentSlug) [])] :=
      hset_of_not_mem m t.slug _ (hdis t (List.mem_cons_self t rest))
    rw [hstep]
    have hdis2 : ∀ u ∈ rest,
        (((m ++ [(t.slug, HEntry.mk (normParent t.parentSlug) [])]).any
          fun pr => pr.1 == u.slug) = false) := by
      intro u hu
      rw [List.any_append]
      have h1 := hdis u (List.mem_cons_of_mem t hu)
      have h2 : ¬ t.slug = u.slug := by
        intro hh
        exact hnd'.1 (hh ▸ List.mem_map_of_mem Team.slug hu)
      simp [h1, h2]
    rw [ih _ hnd'.2 hdis2, List.append_assoc]
    rfl

theorem hget_literal_self :
    ∀ (ts : List Team) (t : Team), (ts.map Team.slug).Nodup → t ∈ ts →
      hget (ts.map fun u => (u.slug, HEntry.mk (normParent u.parentSlug) [])) t.slug
        = some (HEntry.mk (normParent t.parentSlug) []) := by
  intro ts
  induction ts with
  | nil => intro t _ ht; cases ht
  | cons u rest ih =>
    intro t hnd ht
    have hnd' : u.slug ∉ rest.map Team.slug ∧ (rest.map Team.slug).Nodup := by
      rw [List.map_cons, List.nodup_cons] at hnd
      exact hnd
    rcases List.mem_cons.mp ht with h | h
    · subst h
      simp [hget]
    · have hne : (u.slug == t.slug) = false := by
        apply bool_eq_false
        simp only [beq_iff_eq]
        intro hh
        exact hnd'.1 (hh ▸ List.mem_map_of_mem Team.slug h)
      simp only [List.map_cons, hget, hne]
      exact ih t hnd'.2 h

theorem hget_literal_none :
    ∀ (ts : List Team) (s : String), s ∉ ts.map Team.slug →
      hget (ts.map fun u => (u.slug, HEntry.mk (normParent u.parentSlug) [])) s
        = none := by
  intro ts
  induction ts with
  | nil => intro s _; rfl
  | cons u rest ih =>
    intro s hs
    have h1 : s ≠ u.slug ∧ s ∉ rest.map Team.slug := by
      rw [List.map_cons, List.mem_cons, not_or] at hs
      exact hs
    have hne : (u.slug == s) = false := by
      apply bool_eq_false
      simp only [beq_iff_eq]
      exact fun hh => h1.1 hh.symm
    simp only [List.map_cons, hget, hne]
    exact ih s h1.2

theorem foldl_append_flatten {γ : Type} (g : String → List γ) :
    ∀ (cs : List String) (acc : List γ),
      cs.foldl (fun a c => a ++ g c) acc = acc ++ (cs.map g).flatten := by
  intro cs
  induction cs with
  | nil => intro acc; simp
  | cons c t ih => intro acc; simp [List.foldl_cons, ih, List.append_assoc]

/-! ### Concrete teams for the worked example and the witnesses -/

def platformSlug : String := "platform"

def backendSlug : String := "platform-backend"

def memberA : Member := { username := "A", role := "member", state := "active" }

def memberB : Member := { username := "B", role := "member", state := "active" }

def memberC : Member := { username := "C", role := "member", state := "active" }

def teamPlatform : Team := { slug := platformSlug, parentSlug := none }

def teamBackend : Team := { slug := backendSlug, parentSlug := some platformSlug }

def exampleTeams : List Team := [teamPlatform, teamBackend]

/-- Raw member lists: `platform` reports `[A, B, C]`, `platform-backend`
reports `[B, C]`. -/
def exampleRawOf : String → List Member :=
  fun s =>
    if s = platformSlug then [memberA, memberB, memberC]
    else if s = backendSlug then [memberB, memberC]
    else []

def aSlug : String := "a"

def ghostSlug : String := "ghost"

/-- A team whose named parent is not among the input teams. -/
def teamOrphan : Team := { slug := aSlug, parentSlug := some ghostSlug }

/-- C2: the direct-member classification of `getDirectMembersOnly`: a team
with no parent and no children keeps all its raw members; a team with
children but no parent keeps exactly its raw members not occurring in any
child team's raw member list (in order); a team with a non-empty parent slug
keeps all its raw members whether or not it has children; and on the worked
example (platform with raw `[A,B,C]`, child platform-backend with raw
`[B,C]`) the full pipeline resolves platform's direct members to `[A]` and
platform-backend's to `[B,C]`. -/
theorem directMembers_classification (rawOf : String → List Member) (s p : String)
    (cs : List String) (hcs : cs ≠ []) (hp : p ≠ "") :
    getDirectMembersOnly rawOf s [] none = rawOf s
    ∧ getDirectMembersOnly rawOf s cs none =
        (rawOf s).filter (fun m =>
          !(((cs.map fun c => (rawOf c).map Member.username).flatten).contains m.username))
    ∧ getDirectMembersOnly rawOf s cs (some p) = rawOf s
    ∧ getDirectMembersOnly rawOf s [] (some p) = rawOf s
    ∧ resolveDirect exampleTeams exampleRawOf teamPlatform = [memberA]
    ∧ resolveDirect exampleTeams exampleRawOf teamBackend = [memberB, memberC] := by
  have hlen : 0 < cs.length := List.length_pos.mpr hcs
  have hf : strOptFalsy (some p) = false := by simp [strOptFalsy, hp]
  refine ⟨rfl, ?_, ?_, ?_, by decide, by decide⟩
  · simp only [getDirectMembersOnly]
    rw [if_neg (by simp only [strOptFalsy]; omega), if_pos ⟨rfl, hlen⟩]
    rw [foldl_append_flatten (fun c => (rawOf c).map Member.username) cs]
    rw [List.nil_append]
  · simp [getDirectMembersOnly, hf]
  · simp [getDirectMembersOnly, hf]

theorem directMembers_classification_witness :
    resolveDirect exampleTeams exampleRawOf teamPlatform = [memberA]
    ∧ resolveDirect exampleTeams exampleRawOf teamBackend = [memberB, memberC] :=
  ⟨(directMembers_classification exampleRawOf platformSlug platformSlug [backendSlug]
      (by decide) (by decide)).2.2.2.2.1,
    (directMembers_classification exampleRawOf platformSlug platformSlug [backendSlug]
      (by decide) (by decide)).2.2.2.2.2⟩

/-- C8 counterexample: for the single input team `a` whose named parent
`ghost` is not among the input teams, the built hierarchy has no entry for
`ghost` at all and the slug `a` appears in no children list — the code only
pushes a child when `hierarchy[team.parent.slug]` exists, contradicting the
claim that the slug is appended "including when the named parent is not
itself among the input teams". -/
theorem buildTeamHierarchy_missing_parent :
    buildTeamHierarchy [teamOrphan] = [(aSlug, HEntry.mk (some ghostSlug) [])]
    ∧ hget (buildTeamHierarchy [teamOrphan]) ghostSlug = none
    ∧ ((buildTeamHierarchy [teamOrphan]).all fun pr => !(pr.2.children.contains aSlug)) = true :=
  ⟨by decide, by decide, by decide⟩

/-- C8 (amended): for input teams with pairwise distinct slugs, the built
hierarchy maps each input team's slug to its normalised parent slug together
with the children list holding, in input order, exactly the slugs of the
input teams naming it as parent; a slug that is not an input team's slug —
in particular a named parent that is absent from the input — gets no entry,
so such a parent accumulates no children list. -/
theorem buildTeamHierarchy_char (teams : List Team) (t : Team) (s : String)
    (hnd : (teams.map Team.slug).Nodup) (ht : t ∈ teams) (hs : s ∉ teams.map Team.slug) :
    hget (buildTeamHierarchy teams) t.slug =
      some (HEntry.mk (normParent t.parentSlug)
        ((teams.filter fun u => normParent u.parentSlug == some t.slug).map Team.slug))
    ∧ hget (buildTeamHierarchy teams) s = none := by
  have hbuild : buildTeamHierarchy teams
      = teams.foldl hierPass2 (teams.foldl hierPass1 []) := rfl
  have hpass1 : teams.foldl hierPass1 []
      = teams.map fun u => (u.slug, HEntry.mk (normParent u.parentSlug) []) := by
    simpa using foldl_hierPass1_eq teams [] hnd (fun _ _ => rfl)
  constructor
  · rw [hbuild, hpass1, foldl_hierPass2_hget t.slug teams _,
      hget_literal_self teams t hnd ht]
    simp
  · rw [hbuild, hpass1, foldl_hierPass2_hget s teams _,
      hget_literal_none teams s hs]

theorem buildTeamHierarchy_char_witness :
    hget (buildTeamHierarchy exampleTeams) teamPlatform.slug =
      some (HEntry.mk (normParent teamPlatform.parentSlug)
        ((exampleTeams.filter fun u =>
          normParent u.parentSlug == some teamPlatform.slug).map Team.slug))
    ∧ hget (buildTeamHierarchy exampleTeams) ghostSlug = none :=
  ⟨(buildTeamHierarchy_char exampleTeams teamPlatform ghostSlug
      (by decide) (by decide) (by decide)).1,
    (buildTeamHierarchy_char exampleTeams teamPlatform ghostSlug
      (by decide) (by decide) (by decide)).2⟩

/-! ### Concurrent callers of getOctokitClient

`getOctokitClient` has no single-flight guard: the module state is only the
bare `octokitInstance` variable, and the credential check
(`!token || !isTokenValid(expiresAt)`) runs synchronously before the `await`s
of the refresh.  Under Node's cooperative scheduling each concurrent call is
a task with two relevant atomic steps separated by the refresh's `await`s:

  * step `pc = 0` — read `config.github.token` / `tokenExpires` and decide
    `needsRefresh` (the synchronous prefix up to the first `await`);
  * step `pc = 1` — if a refresh was decided, complete the assertion
    exchange and run `updateEnvToken` (one exchange counted, config updated).

A schedule is the list of task ids in the order their next step runs. -/

structure SharedCfg where
  token : Option String
  tokenExpires : JSStr
  exchangeCount : Nat
deriving Repr, DecidableEq

structure Caller where
  pc : Nat
  needsRefresh : Bool
deriving Repr, DecidableEq

structure Sys where
  shared : SharedCfg
  callers : Nat → Caller

/-- `!token || !isTokenValid(expiresAt)` read from the shared config. -/
def checkNeedsRefresh (parseDate : String → Option Int) (now : Int) (s : SharedCfg) : Bool :=
  strOptFalsy s.token || !(isTokenValid parseDate now s.tokenExpires)

def runStep (parseDate : String → Option Int) (now : Int) (newTok newExp : String)
    (sys : Sys) (tid : Nat) : Sys :=
  if (sys.callers tid).pc = 0 then
    { sys with callers := fun t => if t = tid
        then Caller.mk 1 (checkNeedsRefresh parseDate now sys.shared)
        else sys.callers t }
  else if (sys.callers tid).pc = 1 then
    if (sys.callers tid).needsRefresh then
      { shared := SharedCfg.mk (some newTok) (JSStr.str newExp) (sys.shared.exchangeCount + 1),
        callers := fun t => if t = tid
          then Caller.mk 2 (sys.callers tid).needsRefresh
          else sys.callers t }
    else
      { sys with callers := fun t => if t = tid
          then Caller.mk 2 (sys.callers tid).needsRefresh
          else sys.callers t }
  else sys

def runSched (parseDate : String → Option Int) (now : Int) (newTok newExp : String)
    (sched : List Nat) (sys : Sys) : Sys :=
  sched.foldl (runStep parseDate now newTok newExp) sys

/-- No credential cached: `token` undefined, `tokenExpires` null. -/
def initSys : Sys :=
  { shared := SharedCfg.mk none JSStr.null 0,
    callers := fun _ => Caller.mk 0 false }

theorem runStep_check (parseDate : String → Option Int) (now : Int) (newTok newExp : String)
    (sys : Sys) (tid : Nat) (h : (sys.callers tid).pc = 0) :
    runStep parseDate now newTok newExp sys tid =
      { sys with callers := fun t => if t = tid
          then Caller.mk 1 (checkNeedsRefresh parseDate now sys.shared)
          else sys.callers t } := by
  simp only [runStep]
  rw [if_pos h]

theorem runStep_finish (parseDate : String → Option Int) (now : Int) (newTok newExp : String)
    (sys : Sys) (tid : Nat) (h : sys.callers tid = Caller.mk 1 true) :
    runStep parseDate now newTok newExp sys tid =
      { shared := SharedCfg.mk (some newTok) (JSStr.str newExp) (sys.shared.exchangeCount + 1),
        callers := fun t => if t = tid
          then Caller.mk 2 (sys.callers tid).needsRefresh
          else sys.callers t } := by
  simp only [runStep, h]
  rfl

theorem runSched_checks (parseDate : String → Option Int) (now : Int) (newTok newExp : String) :
    ∀ (l : List Nat) (sys : Sys), l.Nodup → (∀ t ∈ l, (sys.callers t).pc = 0) →
      (runSched parseDate now newTok newExp l sys).shared = sys.shared
      ∧ (∀ t ∈ l, (runSched parseDate now newTok newExp l sys).callers t
          = Caller.mk 1 (checkNeedsRefresh parseDate now sys.shared))
      ∧ (∀ t, t ∉ l → (runSched parseDate now newTok newExp l sys).callers t
          = sys.callers t) := by
  intro l
  induction l with
  | nil => exact fun sys _ _ => ⟨rfl, by simp, fun t _ => rfl⟩
  | cons a rest ih =>
    intro sys hnd hpc
    have hnd' : a ∉ rest ∧ rest.Nodup := List.nodup_cons.mp hnd
    have hrun : runSched parseDate now newTok newExp (a :: rest) sys
        = runSched parseDate now newTok newExp rest
            (runStep parseDate now newTok newExp sys a) := rfl
    have hstep := runStep_check parseDate now newTok newExp sys a
      (hpc a (List.mem_cons_self a rest))
    rw [hrun, hstep]
    obtain ⟨ihsh, ihin, ihout⟩ := ih
      { sys with callers := fun t => if t = a
          then Caller.mk 1 (checkNeedsRefresh parseDate now sys.shared)
          else sys.callers t }
      hnd'.2
      (by
        intro t htr
        simp only [if_neg (fun hh : t = a => hnd'.1 (hh ▸ htr))]
        exact hpc t (List.mem_cons_of_mem a htr))
    refine ⟨ihsh, ?_, ?_⟩
    · intro t htl
      rcases List.mem_cons.mp htl with hta | htr
      · subst hta
        rw [ihout t hnd'.1]
        simp
      · exact ihin t htr
    · intro t htl
      have hta : t ≠ a := fun hh => htl (hh ▸ List.mem_cons_self a rest)
      have htr : t ∉ rest := fun hh => htl (List.mem_cons_of_mem a hh)
      rw [ihout t htr]
      simp [hta]

theorem runSched_finishes (parseDate : String → Option Int) (now : Int) (newTok newExp : String) :
    ∀ (l : List Nat) (sys : Sys), l.Nodup → (∀ t ∈ l, sys.callers t = Caller.mk 1 true) →
      (runSched parseDate now newTok newExp l sys).shared.exchangeCount
        = sys.shared.exchangeCount + l.length := by
  intro l
  induction l with
  | nil => exact fun sys _ _ => rfl
  | cons a rest ih =>
    intro sys hnd hready
    have hnd' : a ∉ rest ∧ rest.Nodup := List.nodup_cons.mp hnd
    have hrun : runSched parseDate now newTok newExp (a :: rest) sys
        = runSched parseDate now newTok newExp rest
            (runStep parseDate now newTok newExp sys a) := rfl
    have hstep := runStep_finish parseDate now newTok newExp sys a
      (hready a (List.mem_cons_self a rest))
    rw [hrun, hstep]
    rw [ih
      { shared := SharedCfg.mk (some newTok) (JSStr.str newExp) (sys.shared.exchangeCount + 1),
        callers := fun t => if t = a
          then Caller.mk 2 (sys.callers a).needsRefresh
          else sys.callers t }
      hnd'.2
      (by
        intro t htr
        simp only [if_neg (fun hh : t = a => hnd'.1 (hh ▸ htr))]
        exact hready t (List.mem_cons_of_mem a htr))]
    show sys.shared.exchangeCount + 1 + rest.length
        = sys.shared.exchangeCount + (a :: rest).length
    rw [List.length_cons]
    omega

/-- C5 counterexample: two concurrent calls (tasks 0 and 1) while no valid
credential is cached, interleaved as both staleness checks before either
refresh completes — exactly the ordering Node produces for
`Promise.all([getOctokitClient(), getOctokitClient()])` — perform 2 assertion
exchanges, not 1: the code has no single-flight guard. -/
theorem getOctokitClient_not_single_flight :
    (runSched parseNone 0 tokA expFar [0, 1, 0, 1] initSys).shared.exchangeCount = 2
    ∧ ¬ (runSched parseNone 0 tokA expFar [0, 1, 0, 1] initSys).shared.exchangeCount = 1 :=
  ⟨rfl, by decide⟩

/-- C5 (amended): `N` concurrent calls while no valid credential is cached,
all of which run their synchronous staleness check before any refresh
completes, perform exactly `N` assertion exchanges — one per caller — rather
than sharing a single in-flight refresh. -/
theorem concurrent_refresh_count (parseDate : String → Option Int) (now : Int)
    (newTok newExp : String) (N : Nat) :
    (runSched parseDate now newTok newExp (List.range N ++ List.range N)
      initSys).shared.exchangeCount = N := by
  have hsplit : runSched parseDate now newTok newExp (List.range N ++ List.range N) initSys
      = runSched parseDate now newTok newExp (List.range N)
          (runSched parseDate now newTok newExp (List.range N) initSys) := by
    simp [runSched, List.foldl_append]
  obtain ⟨hsh, hin, _⟩ := runSched_checks parseDate now newTok newExp (List.range N) initSys
    (List.nodup_range N) (fun t _ => rfl)
  have hcheck : checkNeedsRefresh parseDate now initSys.shared = true := rfl
  have hready : ∀ t ∈ List.range N,
      (runSched parseDate now newTok newExp (List.range N) initSys).callers t
        = Caller.mk 1 true := by
    intro t ht
    rw [hin t ht, hcheck]
  rw [hsplit, runSched_finishes parseDate now newTok newExp (List.range N) _
    (List.nodup_range N) hready, hsh]
  simp [initSys]

end GhappCli
